import Mathlib

/-!
Shallow embedding of the WXML tag-pair highlight engine
(`WxmlDocumentHighlight` and its helpers `prev`/`next`), together with the
host-editor document primitives it consumes.

Modelling conventions:
* a document is a `List Char`; positions and ranges are character offsets
  (`vscode` line/column positions are translated to offsets; the only place
  where the line structure is observable is the column arithmetic of the
  `prev` helper, modelled by `colAt` below);
* JS regexes are translated to explicit scanners with JS semantics:
  `\w` is `[A-Za-z0-9_]`, `.` does not match line terminators, a global
  `replace` rescans from the character following each match, lazy and greedy
  quantifier behaviour is resolved per pattern and noted at each scanner;
* `vscode.Position` rejects negative line/character values with an
  exception, so the `prev` helper is fallible (`Except`), and
  `provideDocumentHighlights` propagates that failure.
-/

namespace Wxml

/-- JS `\w` together with `:` and `-`: the tag-name character class
`[\w:-]` used by `TagRegexp` and `getWordRangeAtPosition`. -/
def isNameChar (c : Char) : Bool :=
  c.isAlpha || c.isDigit || c = '_' || c = ':' || c = '-'

/-- JS `\s` (ASCII part): whitespace accepted between a tag name and the
closing `/>` of a self-closing tag. -/
def isSpaceChar (c : Char) : Bool :=
  c = ' ' || c = '\t' || c = '\n' || c = '\r' || c = '\x0b' || c = '\x0c'

/-- JS line terminators, which `.` never matches. -/
def isLineTerm (c : Char) : Bool :=
  c = '\n' || c = '\r' || c = '\u2028' || c = '\u2029'

/-- Blank run `new Array(n).fill(' ').join('')`: `n` spaces, the replacement
used by `normalize`'s `replacer`. -/
def blanks (n : Nat) : List Char :=
  List.replicate n ' '

/-- Slice `text.slice(s, e)`: the characters in the half-open range `[s, e)`. -/
def slice (cs : List Char) (s e : Nat) : List Char :=
  (cs.take e).drop s

/-- Scanner for the lazy part `.*?-->` of the comment pattern: looks for the
first occurrence of `-->`, failing if a line terminator comes first (JS `.`
does not match line terminators).  Returns the number of characters consumed,
the closing `-->` included. -/
def commentClose : List Char → Option Nat
  | '-' :: '-' :: '>' :: _ => some 3
  | c :: rest => if isLineTerm c then none else (commentClose rest).map (· + 1)
  | [] => none

/-- Head match of `/<!--.*?-->/`: the comment-blanking pattern of
`normalize`. Returns the match length. -/
def commentMatch : List Char → Option Nat
  | '<' :: '!' :: '-' :: '-' :: rest => (commentClose rest).map (4 + ·)
  | _ => none

/-- Scanner for `[^q]*q`: consume up to and including the next occurrence of
the quote character `q` (negated classes do match line terminators). -/
def quoteClose (q : Char) : List Char → Option Nat
  | [] => none
  | c :: rest => if c = q then some 1 else (quoteClose q rest).map (· + 1)

/-- Head match of `/("[^"]*"|'[^']*')/`: the quoted-literal-blanking pattern
of `normalize`. Returns the match length. -/
def quoteMatch : List Char → Option Nat
  | '"' :: rest => (quoteClose '"' rest).map (1 + ·)
  | '\'' :: rest => (quoteClose '\'' rest).map (1 + ·)
  | _ => none

/-- Scanner for the tail `[^<>]*\/>` of the self-closing-tag pattern, with
the preceding character threaded through: consume non-angle-bracket
characters until the first `<` or `>`; succeed exactly when that first
bracket is `>` immediately preceded by `/` (greedy `[^<>]*` backtracking
resolves to this, because the final `>` of the literal must be the first
angle bracket encountered). Returns the number of characters consumed. -/
def selfCloseClose : Char → List Char → Option Nat
  | p, '>' :: _ => if p = '/' then some 1 else none
  | _, '<' :: _ => none
  | _, c :: rest => (selfCloseClose c rest).map (1 + ·)
  | _, [] => none

/-- Head match of `/<[\w:-]+\s+[^<>]*\/>/`: the self-closing-tag-blanking
pattern of `normalize`.  Note it requires at least one whitespace character
after the tag name, so a bare `<name/>` does not match. -/
def selfCloseMatch : List Char → Option Nat
  | '<' :: rest =>
      let n := (rest.takeWhile isNameChar).length
      if n = 0 then none
      else
        match rest.drop n with
        | c :: rest2 =>
            if isSpaceChar c then (selfCloseClose c rest2).map (fun k => 1 + n + 1 + k)
            else none
        | [] => none
  | _ => none

/-- Global replace `content.replace(pattern, replacer)` with the
blank-padding `replacer`: scan left to right, replace each leftmost match by
an equal-length run of spaces and continue after it (`m` gives the match
length of the pattern at the head of a suffix, or `none`). -/
def replaceBlank (m : List Char → Option Nat) : List Char → List Char
  | [] => []
  | c :: rest =>
      match m (c :: rest) with
      | some len =>
          if hl : len = 0 then c :: replaceBlank m rest
          else blanks len ++ replaceBlank m ((c :: rest).drop len)
      | none => c :: replaceBlank m rest
termination_by cs => cs.length
decreasing_by
  · simp
  · simp only [List.length_drop, List.length_cons]
    omega

/-- Normalization `normalize`: blank comments, then quoted literals, then complete
self-closing tags, keeping the length (and hence all offsets) unchanged. -/
def normalize (content : List Char) : List Char :=
  replaceBlank selfCloseMatch (replaceBlank quoteMatch (replaceBlank commentMatch content))

/-- A tag token produced by `TagRegexp = /<([\\w:-]+)|<\\/([\\w:-]+)>/g`:
`startTag` for a match of the first alternative (capture group 1),
`endTag` for a match of the second (capture group 2).  `offset` is
`mat.index`, the position of the `<` that starts the match. -/
inductive TagToken where
  | startTag (n : List Char) (offset : Nat)
  | endTag (n : List Char) (offset : Nat)
deriving DecidableEq, Repr

/-- One attempt of `TagRegexp` at the head of a suffix.  The first
alternative `<([\\w:-]+)` wins when `<` is followed by a name character;
otherwise `<\\/([\\w:-]+)>` requires `</`, a nonempty name and an immediate
`>`.  Returns `(isEnd, capturedName, matchLength)`. -/
def tagMatch : List Char → Option (Bool × List Char × Nat)
  | '<' :: '/' :: rest =>
      if rest.takeWhile isNameChar = [] then none
      else
        match rest.drop (rest.takeWhile isNameChar).length with
        | '>' :: _ => some (true, rest.takeWhile isNameChar, (rest.takeWhile isNameChar).length + 3)
        | _ => none
  | '<' :: rest =>
      if rest.takeWhile isNameChar = [] then none
      else some (false, rest.takeWhile isNameChar, (rest.takeWhile isNameChar).length + 1)
  | _ => none

theorem tagMatch_len_pos : ∀ cs b n len, tagMatch cs = some (b, n, len) → 1 ≤ len := by
  intro cs b n len h
  unfold tagMatch at h
  split at h
  · split at h
    · simp at h
    · split at h
      · simp at h
        omega
      · simp at h
  · split at h
    · simp at h
    · simp at h
      omega
  · simp at h

/-- The scan loop `while ((mat = TagRegexp.exec(text)))` shared by both
matchers: after a match the regex continues at `lastIndex = mat.index +
matchLength`; after a failed attempt at one position the engine retries at
the next.  `i` is the absolute offset of the head of the remaining text.
A match length is always positive (`tagMatch_len_pos`), so dropping
`len - 1` characters of the tail is dropping `len` of the whole suffix. -/
def tokenizeFrom : List Char → Nat → List TagToken
  | [], _ => []
  | c :: rest, i =>
      match tagMatch (c :: rest) with
      | some (isEnd, n, len) =>
          (if isEnd then TagToken.endTag n i else TagToken.startTag n i)
            :: tokenizeFrom (rest.drop (len - 1)) (i + len)
      | none => tokenizeFrom rest (i + 1)
termination_by cs => cs.length
decreasing_by
  · simp only [List.length_drop, List.length_cons]
    omega
  · simp

/-- All tokens of a text slice, in document order, with offsets relative to
the start of the slice (a fresh scan: `TagRegexp.lastIndex = 0`). -/
def tokenize (cs : List Char) : List TagToken :=
  tokenizeFrom cs 0

/-- The token loop of `findMatchedEndTag`: start tokens push their name;
an end token pops — with a nonempty stack a popped-name mismatch stops the
search with no result, and with an empty stack an end token of the searched
name is the match (any other depth-zero end token is skipped and the scan
continues). -/
def findEndGo (name : List Char) : List TagToken → List (List Char) → Option Nat
  | [], _ => none
  | TagToken.startTag n _ :: ts, stack => findEndGo name ts (n :: stack)
  | TagToken.endTag n off :: ts, stack =>
      match stack with
      | [] => if n = name then some off else findEndGo name ts []
      | last :: stack2 => if last ≠ n then none else findEndGo name ts stack2

/-- Forward matcher `findMatchedEndTag(name, nextContent)`: offset (of the `<` of the
matching `</name>`) within `nextContent`, or `none`. -/
def findMatchedEndTag (name : List Char) (nextContent : List Char) : Option Nat :=
  findEndGo name (tokenize nextContent) []

/-- The token loop of `findMatchedStartTag`: start tokens push `(name,
offset)`; an end token pops, and the loop stops early (`break`) on an empty
stack or a popped-name mismatch.  Returns the stack at exit. -/
def findStartGo : List TagToken → List (List Char × Nat) → List (List Char × Nat)
  | [], stack => stack
  | TagToken.startTag n off :: ts, stack => findStartGo ts ((n, off) :: stack)
  | TagToken.endTag n _ :: ts, stack =>
      match stack with
      | [] => []
      | (ln, loff) :: stack2 =>
          if ln ≠ n then stack2 else findStartGo ts stack2

/-- Backward matcher `findMatchedStartTag(name, prevContent)`: after the scan (completed or
stopped early), the result is the offset stored in the topmost remaining
stack entry, or `none` when the stack is empty.  Note the `name` parameter
is not consulted by the body. -/
def findMatchedStartTag (name : List Char) (prevContent : List Char) : Option Nat :=
  match findStartGo (tokenize prevContent) [] with
  | [] => none
  | (_, off) :: _ => some off

/-- Column (character offset within its line) of document offset `s`:
`0` right after a line break, else one more than the previous offset.
This is the `pos.character` of the `vscode` position for offset `s`. -/
def colAt (content : List Char) : Nat → Nat
  | 0 => 0
  | s + 1 =>
      if content.getD s ' ' = '\n' ∨ content.getD s ' ' = '\r' then 0
      else colAt content s + 1

/-- Number of characters from offset `e` to the end of its line. -/
def lineRemain (content : List Char) (e : Nat) : Nat :=
  ((content.drop e).takeWhile (fun c => ¬(c = '\n' ∨ c = '\r'))).length

/-- The helper `prev(doc, pos, length)`: the `length` characters before the
position.  It builds `new Position(pos.line, pos.character - length)`, and
`vscode.Position` throws `illegalArgument` when the character would be
negative — i.e. when fewer than `length` characters precede the position on
its own line — modelled as `Except.error`. -/
def prevE (content : List Char) (s len : Nat) : Except Unit (List Char) :=
  if colAt content s < len then .error ()
  else .ok (slice content (s - len) s)

/-- The helper `next(doc, pos, length)`: the `length` characters after the
position, on the same line (`getText` clamps the end position to the line
end, so the result is truncated at a line break). -/
def nextChars (content : List Char) (e len : Nat) : List Char :=
  slice content e (e + min len (lineRemain content e))

/-- Start of the maximal `[\\w:-]+` run containing offsets below the given
one: scan left while the previous character is a name character. -/
def runStart (content : List Char) : Nat → Nat
  | 0 => 0
  | k + 1 => if isNameChar (content.getD k ' ') then runStart content k else k + 1

/-- Host editor `doc.getWordRangeAtPosition(pos, /[\\w:-]+/)`: the range of
the maximal run of name characters containing the cursor, or `none` when the
cursor is not on such a character.  (Runs never span lines because line
breaks are not name characters.) -/
def wordRangeAt (content : List Char) (pos : Nat) : Option (Nat × Nat) :=
  if isNameChar (content.getD pos ' ') then
    some (runStart content pos, pos + ((content.drop pos).takeWhile isNameChar).length)
  else none

/-- The resolver's self-closing test `/^[^<>]*\\/>/.test(nextText)`: some
run of non-angle-bracket characters followed by `/>` at the start of the
text after the anchor. -/
def selfCloseTest : List Char → Bool
  | '/' :: '>' :: _ => true
  | c :: rest => if c = '<' ∨ c = '>' then false else selfCloseTest rest
  | [] => false

/-- Entry point `provideDocumentHighlights(doc, pos)`.  Ranges are pairs of character
offsets (the final wrapping of each range in a `DocumentHighlight` is
identity on the range).  The computation is fallible only through `prev`
(see `prevE`); all other steps are total. -/
def provideDocumentHighlights (content : List Char) (pos : Nat) :
    Except Unit (List (Nat × Nat)) := do
  match wordRangeAt content pos with
  | none => return []
  | some (s, e) =>
      let name := slice content s e
      let res : List (Nat × Nat) := [(s, e)]
      let p1 ← prevE content s 1
      if p1 = ['<'] then
        let nextStartIndex := e
        let nextText := normalize (content.drop nextStartIndex)
        if ¬ selfCloseTest nextText then
          match findMatchedEndTag name nextText with
          | some nextEndIndex =>
              return res ++ [(nextStartIndex + nextEndIndex + 2,
                              nextStartIndex + nextEndIndex + 2 + name.length)]
          | none => return res
        else
          return res
      else
        let p2 ← prevE content s 2
        if p2 = ['<', '/'] ∧ nextChars content e 1 = ['>'] then
          let prevEndIndex := s - 2
          let prevText := normalize (content.take prevEndIndex)
          match findMatchedStartTag name prevText with
          | some prevStartIndex =>
              return res ++ [(prevStartIndex + 1, prevStartIndex + 1 + name.length)]
          | none => return res
        else
          return res

/-! ## Well-formed markup fragments -/

/-- A valid tag name: nonempty and matching `[\\w:-]+`. -/
def validName (n : List Char) : Prop :=
  n ≠ [] ∧ ∀ c ∈ n, isNameChar c = true

/-- Plain character data usable between tags: contains no tag opener `<`
and no quote characters (so `normalize` leaves it untouched and the
tokenizer never starts a match inside it). -/
def goodText (t : List Char) : Prop :=
  ∀ c ∈ t, c ≠ '<' ∧ c ≠ '"' ∧ c ≠ '\''

/-- Well-formed markup content: a sequence of character-data runs and
properly nested, properly named elements. -/
inductive Balanced : List Char → Prop where
  | nil : Balanced []
  | text (t rest : List Char) : goodText t → Balanced rest → Balanced (t ++ rest)
  | elem (n inner rest : List Char) : validName n → Balanced inner → Balanced rest →
      Balanced ('<' :: (n ++ '>' :: (inner ++ '<' :: '/' :: (n ++ '>' :: rest))))

/-- A well-formed document fragment: one start tag, well-formed content,
and the matching end tag. -/
def pairDoc (n mid : List Char) : List Char :=
  '<' :: (n ++ '>' :: (mid ++ '<' :: '/' :: (n ++ ['>'])))

/-- Depth-`d` nested `<view>` elements around the text `x`:
`nestedDoc 2 = "<view><view>x</view></view>".toList`. -/
def nestedDoc : Nat → List Char
  | 0 => ['x']
  | d + 1 => pairDoc ['v', 'i', 'e', 'w'] (nestedDoc d)

/-! ## Small list toolkit -/

theorem takeWhile_name_append {p : Char → Bool} {n : List Char}
    (hn : ∀ c ∈ n, p c = true) {y : Char} (hy : p y = false) (ys : List Char) :
    ((n ++ y :: ys).takeWhile p) = n := by
  rw [List.takeWhile_append_of_pos hn, List.takeWhile_cons, hy]
  simp

theorem nameChar_ne_special {c : Char} (hc : isNameChar c = true) :
    c ≠ '<' ∧ c ≠ '>' ∧ c ≠ '/' ∧ c ≠ '!' ∧ c ≠ '"' ∧ c ≠ '\'' := by
  refine ⟨?_, ?_, ?_, ?_, ?_, ?_⟩ <;> rintro rfl <;> simp [isNameChar] at hc

/-! ## Behaviour of the tag scanner on shaped text -/

theorem tagMatch_of_ne (c : Char) (hc : c ≠ '<') (rest : List Char) :
    tagMatch (c :: rest) = none := by
  unfold tagMatch
  split <;> simp_all

theorem tagMatch_start (n : List Char) (hne : n ≠ [])
    (hn : ∀ c ∈ n, isNameChar c = true) (y : Char) (hy : isNameChar y = false)
    (ys : List Char) :
    tagMatch ('<' :: (n ++ y :: ys)) = some (false, n, n.length + 1) := by
  obtain ⟨a, as, rfl⟩ : ∃ a as, n = a :: as := by
    cases n with
    | nil => exact absurd rfl hne
    | cons a as => exact ⟨a, as, rfl⟩
  have ha : isNameChar a = true := hn a (by simp)
  have htw : List.takeWhile isNameChar (a :: (as ++ y :: ys)) = a :: as := by
    have := takeWhile_name_append hn hy ys
    simpa using this
  show tagMatch ('<' :: a :: (as ++ y :: ys)) = _
  unfold tagMatch
  split
  · rename_i heq
    rw [List.cons.injEq, List.cons.injEq] at heq
    obtain ⟨-, ha2, -⟩ := heq
    rw [ha2] at ha
    exact absurd ha (by decide)
  · rename_i heq
    rw [List.cons.injEq] at heq
    obtain ⟨-, hrest⟩ := heq
    rw [← hrest, htw]
    simp
  · rename_i hc1 hc2
    exact absurd rfl (hc2 (a :: (as ++ y :: ys)))

theorem tagMatch_end (n : List Char) (hne : n ≠ [])
    (hn : ∀ c ∈ n, isNameChar c = true) (ys : List Char) :
    tagMatch ('<' :: '/' :: (n ++ '>' :: ys)) = some (true, n, n.length + 3) := by
  have hgt : isNameChar '>' = false := by decide
  show tagMatch ('<' :: '/' :: (n ++ '>' :: ys)) = _
  unfold tagMatch
  simp only [takeWhile_name_append hn hgt, List.drop_left]
  simp [hne]

theorem tokenizeFrom_cons_none {c : Char} {rest : List Char}
    (h : tagMatch (c :: rest) = none) (i : Nat) :
    tokenizeFrom (c :: rest) i = tokenizeFrom rest (i + 1) := by
  rw [tokenizeFrom.eq_def]
  simp only [h]

theorem tokenizeFrom_text {t : List Char} (ht : ∀ c ∈ t, c ≠ '<') :
    ∀ (s : List Char) (i : Nat), tokenizeFrom (t ++ s) i = tokenizeFrom s (i + t.length) := by
  induction t with
  | nil => simp
  | cons c cs ih =>
      intro s i
      rw [List.cons_append, tokenizeFrom_cons_none (tagMatch_of_ne c (ht c (by simp)) _),
        ih (fun d hd => ht d (by simp [hd])) s (i + 1)]
      congr 1
      simp only [List.length_cons]
      omega

theorem tokenizeFrom_startTag (n : List Char) (hne : n ≠ [])
    (hn : ∀ c ∈ n, isNameChar c = true) (s : List Char) (i : Nat) :
    tokenizeFrom ('<' :: (n ++ '>' :: s)) i
      = TagToken.startTag n i :: tokenizeFrom s (i + n.length + 2) := by
  rw [tokenizeFrom.eq_def]
  simp only [tagMatch_start n hne hn '>' (by decide) s]
  simp only [Nat.add_sub_cancel, List.drop_left]
  rw [tokenizeFrom_cons_none (tagMatch_of_ne '>' (by decide) s)]
  simp only [Bool.false_eq_true, if_false]
  congr 1

theorem tokenizeFrom_endTag (n : List Char) (hne : n ≠ [])
    (hn : ∀ c ∈ n, isNameChar c = true) (s : List Char) (i : Nat) :
    tokenizeFrom ('<' :: '/' :: (n ++ '>' :: s)) i
      = TagToken.endTag n i :: tokenizeFrom s (i + n.length + 3) := by
  rw [tokenizeFrom.eq_def]
  simp only [tagMatch_end n hne hn s]
  have hdrop : List.drop (n.length + 3 - 1) ('/' :: (n ++ '>' :: s)) = s := by
    have h2 : ('/' :: (n ++ '>' :: s)) = (('/' :: n) ++ ['>']) ++ s := by simp
    rw [h2, List.drop_append_of_le_length (by simp)]
    have : (('/' :: n) ++ ['>']).length = n.length + 2 := by simp
    rw [show n.length + 3 - 1 = n.length + 2 from by omega, ← this, List.drop_length]
    simp
  rw [hdrop]
  simp only [show (true = true) = True from by simp, if_true]
  congr 1

/-- Token streams produced by well-formed content: concatenations of
`startTag n i`, a balanced inner stream, the matching `endTag n j`, and a
balanced remainder. -/
inductive BalTokens : List TagToken → Prop where
  | nil : BalTokens []
  | elem (n : List Char) (i j : Nat) (inner rest : List TagToken) :
      BalTokens inner → BalTokens rest →
      BalTokens (TagToken.startTag n i :: (inner ++ TagToken.endTag n j :: rest))

/-- Tokenizing well-formed content followed by anything yields a balanced
token stream followed by the tokens of the remainder. -/
theorem balanced_tokenizeFrom {m : List Char} (hm : Balanced m) :
    ∀ (s : List Char) (i : Nat), ∃ T, BalTokens T ∧
      tokenizeFrom (m ++ s) i = T ++ tokenizeFrom s (i + m.length) := by
  induction hm with
  | nil =>
      intro s i
      exact ⟨[], BalTokens.nil, by simp⟩
  | text t rest hg _ ih =>
      intro s i
      obtain ⟨T, hT, he⟩ := ih s (i + t.length)
      refine ⟨T, hT, ?_⟩
      rw [List.append_assoc, tokenizeFrom_text (fun c hc => (hg c hc).1), he]
      congr 2
      simp
      omega
  | elem n inner rest hv _ _ ih_inner ih_rest =>
      intro s i
      obtain ⟨Ti, hTi, hei⟩ :=
        ih_inner ('<' :: '/' :: (n ++ '>' :: (rest ++ s))) (i + n.length + 2)
      obtain ⟨Tr, hTr, her⟩ :=
        ih_rest s (i + n.length + 2 + inner.length + n.length + 3)
      refine ⟨TagToken.startTag n i ::
          (Ti ++ TagToken.endTag n (i + n.length + 2 + inner.length) :: Tr),
        BalTokens.elem n i _ _ _ hTi hTr, ?_⟩
      have hsplit : ('<' :: (n ++ '>' :: (inner ++ '<' :: '/' :: (n ++ '>' :: rest)))) ++ s
          = '<' :: (n ++ '>' :: (inner ++ ('<' :: '/' :: (n ++ '>' :: (rest ++ s))))) := by
        simp
      rw [hsplit, tokenizeFrom_startTag n hv.1 hv.2 _ i, hei,
        tokenizeFrom_endTag n hv.1 hv.2 _ _, her]
      have hidx : i + n.length + 2 + inner.length + n.length + 3 + rest.length
          = i + ('<' :: (n ++ '>' :: (inner ++ '<' :: '/' :: (n ++ '>' :: rest)))).length := by
        simp
        omega
      rw [hidx]
      simp

/-- A balanced token stream is transparent to the forward matcher: every
pushed start is popped by its own closer, so the stack and the scan continue
as if the stream were absent. -/
theorem findEndGo_balanced {T : List TagToken} (hT : BalTokens T) :
    ∀ (name : List Char) (ts : List TagToken) (stack : List (List Char)),
      findEndGo name (T ++ ts) stack = findEndGo name ts stack := by
  induction hT with
  | nil => intro name ts stack; simp
  | elem n i j inner rest _ _ ih_inner ih_rest =>
      intro name ts stack
      rw [List.cons_append, List.append_assoc, List.cons_append]
      rw [findEndGo, ih_inner, findEndGo]
      simp only [ne_eq, not_true_eq_false, if_false]
      exact ih_rest name ts stack

/-- A balanced token stream is transparent to the backward matcher. -/
theorem findStartGo_balanced {T : List TagToken} (hT : BalTokens T) :
    ∀ (ts : List TagToken) (stack : List (List Char × Nat)),
      findStartGo (T ++ ts) stack = findStartGo ts stack := by
  induction hT with
  | nil => intro ts stack; simp
  | elem n i j inner rest _ _ ih_inner ih_rest =>
      intro ts stack
      rw [List.cons_append, List.append_assoc, List.cons_append]
      rw [findStartGo, ih_inner, findStartGo]
      simp only [ne_eq, not_true_eq_false, if_false]
      exact ih_rest ts stack

/-! ## Strings that `normalize` leaves unchanged -/

/-- Strings on which no pass of `normalize` finds anything to blank:
quote-free character data interleaved with plain start tags, plain end tags
and bare attribute-less self-closing tags. -/
inductive Clean : List Char → Prop where
  | nil : Clean []
  | chr (c : Char) (rest : List Char) :
      c ≠ '<' → c ≠ '"' → c ≠ '\'' → Clean rest → Clean (c :: rest)
  | startTag (n rest : List Char) : validName n → Clean rest →
      Clean ('<' :: (n ++ '>' :: rest))
  | endTag (n rest : List Char) : validName n → Clean rest →
      Clean ('<' :: '/' :: (n ++ '>' :: rest))
  | selfClose (n rest : List Char) : validName n → Clean rest →
      Clean ('<' :: (n ++ '/' :: '>' :: rest))

theorem Clean_of_nameChars {n rest : List Char} (hn : ∀ c ∈ n, isNameChar c = true)
    (hr : Clean rest) : Clean (n ++ rest) := by
  induction n with
  | nil => simpa using hr
  | cons a as ih =>
      have ha := nameChar_ne_special (hn a (by simp))
      exact Clean.chr a _ ha.1 ha.2.2.2.2.1 ha.2.2.2.2.2
        (ih (fun c hc => hn c (by simp [hc])))

theorem Clean_of_goodText {t rest : List Char} (ht : goodText t) (hr : Clean rest) :
    Clean (t ++ rest) := by
  induction t with
  | nil => simpa using hr
  | cons a as ih =>
      have ha := ht a (by simp)
      exact Clean.chr a _ ha.1 ha.2.1 ha.2.2 (ih (fun c hc => ht c (by simp [hc])))

theorem Clean_append {a b : List Char} (ha : Clean a) (hb : Clean b) : Clean (a ++ b) := by
  induction ha with
  | nil => simpa using hb
  | chr c rest h1 h2 h3 _ ih => exact Clean.chr c _ h1 h2 h3 ih
  | startTag n rest hv _ ih =>
      have := Clean.startTag n (rest ++ b) hv ih
      simpa using this
  | endTag n rest hv _ ih =>
      have := Clean.endTag n (rest ++ b) hv ih
      simpa using this
  | selfClose n rest hv _ ih =>
      have := Clean.selfClose n (rest ++ b) hv ih
      simpa using this

theorem Clean_tail {c : Char} {rest : List Char} (h : Clean (c :: rest)) : Clean rest := by
  generalize hcs : c :: rest = cs at h
  induction h generalizing c rest with
  | nil => exact absurd hcs (by simp)
  | chr d r h1 h2 h3 hr _ =>
      obtain ⟨-, rfl⟩ : d = c ∧ r = rest := by
        constructor <;> (injection hcs with x y; first | exact x.symm | exact y.symm)
      exact hr
  | startTag n r hv hr _ =>
      injection hcs with h1 h2
      rw [h2]
      exact Clean_of_nameChars hv.2 (Clean.chr '>' r (by decide) (by decide) (by decide) hr)
  | endTag n r hv hr _ =>
      injection hcs with h1 h2
      rw [h2]
      exact Clean.chr '/' _ (by decide) (by decide) (by decide)
        (Clean_of_nameChars hv.2 (Clean.chr '>' r (by decide) (by decide) (by decide) hr))
  | selfClose n r hv hr _ =>
      injection hcs with h1 h2
      rw [h2]
      exact Clean_of_nameChars hv.2
        (Clean.chr '/' _ (by decide) (by decide) (by decide)
          (Clean.chr '>' r (by decide) (by decide) (by decide) hr))

theorem Clean_drop (i : Nat) : ∀ {cs : List Char}, Clean cs → Clean (cs.drop i) := by
  induction i with
  | zero => intro cs h; simpa using h
  | succ k ih =>
      intro cs h
      match cs with
      | [] => exact Clean.nil
      | c :: rest => exact ih (Clean_tail h)

theorem validName_cons {n : List Char} (hv : validName n) :
    ∃ a as, n = a :: as ∧ isNameChar a = true ∧ ∀ c ∈ as, isNameChar c = true := by
  cases n with
  | nil => exact absurd rfl hv.1
  | cons a as =>
      exact ⟨a, as, rfl, hv.2 a (by simp), fun c hc => hv.2 c (by simp [hc])⟩

theorem commentMatch_of_shape {cs : List Char}
    (h : ∀ rest, cs ≠ '<' :: '!' :: '-' :: '-' :: rest) : commentMatch cs = none := by
  unfold commentMatch
  split
  · rename_i rest
    exact absurd rfl (h rest)
  · rfl

theorem commentMatch_clean {cs : List Char} (h : Clean cs) : commentMatch cs = none := by
  cases h with
  | nil => rfl
  | chr c rest h1 _ _ _ =>
      refine commentMatch_of_shape (fun r hr => ?_)
      injection hr with hx _
      exact h1 hx
  | startTag n rest hv _ =>
      obtain ⟨a, as, rfl, ha, _⟩ := validName_cons hv
      refine commentMatch_of_shape (fun r hr => ?_)
      injection hr with _ h2
      injection h2 with hx _
      exact (nameChar_ne_special ha).2.2.2.1 hx
  | endTag n rest hv _ =>
      refine commentMatch_of_shape (fun r hr => ?_)
      injection hr with _ h2
      injection h2 with hx _
      exact absurd hx (by decide)
  | selfClose n rest hv _ =>
      obtain ⟨a, as, rfl, ha, _⟩ := validName_cons hv
      refine commentMatch_of_shape (fun r hr => ?_)
      injection hr with _ h2
      injection h2 with hx _
      exact (nameChar_ne_special ha).2.2.2.1 hx

theorem quoteMatch_of_shape {cs : List Char}
    (h1 : ∀ rest, cs ≠ '"' :: rest) (h2 : ∀ rest, cs ≠ '\'' :: rest) :
    quoteMatch cs = none := by
  unfold quoteMatch
  split
  · rename_i rest
    exact absurd rfl (h1 rest)
  · rename_i rest
    exact absurd rfl (h2 rest)
  · rfl

theorem quoteMatch_clean {cs : List Char} (h : Clean cs) : quoteMatch cs = none := by
  cases h with
  | nil => rfl
  | chr c rest hl hq1 hq2 _ =>
      refine quoteMatch_of_shape (fun r hr => ?_) (fun r hr => ?_) <;>
        (injection hr with hx _)
      · exact hq1 hx
      · exact hq2 hx
  | startTag n rest hv _ =>
      refine quoteMatch_of_shape (fun r hr => ?_) (fun r hr => ?_) <;>
        (injection hr with hx _) <;> exact absurd hx (by decide)
  | endTag n rest hv _ =>
      refine quoteMatch_of_shape (fun r hr => ?_) (fun r hr => ?_) <;>
        (injection hr with hx _) <;> exact absurd hx (by decide)
  | selfClose n rest hv _ =>
      refine quoteMatch_of_shape (fun r hr => ?_) (fun r hr => ?_) <;>
        (injection hr with hx _) <;> exact absurd hx (by decide)

theorem selfCloseMatch_of_ne {c : Char} (hc : c ≠ '<') (rest : List Char) :
    selfCloseMatch (c :: rest) = none := by
  unfold selfCloseMatch
  split
  · rename_i r heq
    injection heq with hx _
    exact absurd hx hc
  · rfl

theorem selfCloseMatch_clean {cs : List Char} (h : Clean cs) : selfCloseMatch cs = none := by
  cases h with
  | nil => rfl
  | chr c rest hl _ _ _ => exact selfCloseMatch_of_ne hl rest
  | startTag n rest hv _ =>
      show selfCloseMatch ('<' :: (n ++ '>' :: rest)) = none
      simp only [selfCloseMatch]
      rw [takeWhile_name_append hv.2 (show isNameChar '>' = false from by decide) rest]
      have hlen : n.length ≠ 0 := by
        cases n with
        | nil => exact absurd rfl hv.1
        | cons a as => simp
      simp only [hlen, if_false, List.drop_left]
      simp [isSpaceChar]
  | endTag n rest hv _ =>
      show selfCloseMatch ('<' :: ('/' :: (n ++ '>' :: rest))) = none
      simp only [selfCloseMatch]
      simp [List.takeWhile_cons, isNameChar]
  | selfClose n rest hv _ =>
      show selfCloseMatch ('<' :: (n ++ '/' :: '>' :: rest)) = none
      simp only [selfCloseMatch]
      rw [takeWhile_name_append hv.2 (show isNameChar '/' = false from by decide) ('>' :: rest)]
      have hlen : n.length ≠ 0 := by
        cases n with
        | nil => exact absurd rfl hv.1
        | cons a as => simp
      simp only [hlen, if_false, List.drop_left]
      simp [isSpaceChar]

theorem replaceBlank_id {m : List Char → Option Nat} :
    ∀ {cs : List Char}, (∀ i, m (cs.drop i) = none) → replaceBlank m cs = cs := by
  intro cs
  induction cs with
  | nil =>
      intro _
      rw [replaceBlank.eq_def]
  | cons c rest ih =>
      intro h
      have h0 : m (c :: rest) = none := by simpa using h 0
      rw [replaceBlank.eq_def]
      simp only [h0]
      rw [ih (fun i => by simpa using h (i + 1))]

/-- On clean strings `normalize` is the identity: nothing is blanked. -/
theorem normalize_clean {cs : List Char} (h : Clean cs) : normalize cs = cs := by
  unfold normalize
  rw [replaceBlank_id (fun i => commentMatch_clean (Clean_drop i h)),
    replaceBlank_id (fun i => quoteMatch_clean (Clean_drop i h)),
    replaceBlank_id (fun i => selfCloseMatch_clean (Clean_drop i h))]

/-! ## Locating the anchor word and its surroundings -/

theorem takeWhile_all {p : Char → Bool} :
    ∀ {l : List Char}, (∀ x ∈ l, p x = true) → l.takeWhile p = l := by
  intro l
  induction l with
  | nil => intro _; rfl
  | cons c rest ih =>
      intro h
      rw [List.takeWhile_cons, h c (by simp), ih (fun x hx => h x (by simp [hx]))]
      rfl

theorem slice_append (a b : List Char) (k : Nat) :
    slice (a ++ b) a.length (a.length + k) = b.take k := by
  induction a with
  | nil => simp [slice]
  | cons c rest ih =>
      simp only [List.cons_append, slice, List.length_cons]
      rw [show rest.length + 1 + k = (rest.length + k) + 1 from by omega]
      rw [List.take_succ_cons, List.drop_succ_cons]
      exact ih

theorem slice_cons_shift (c : Char) (cs : List Char) (s e : Nat) :
    slice (c :: cs) (s + 1) (e + 1) = slice cs s e := by
  simp [slice]

theorem drop_append_right (a b : List Char) (j : Nat) :
    (a ++ b).drop (a.length + j) = b.drop j := by
  rw [← List.drop_drop, List.drop_left]

theorem drop_append_sub (a b : List Char) (pos : Nat) (h : a.length ≤ pos) :
    (a ++ b).drop pos = b.drop (pos - a.length) := by
  have e : pos = a.length + (pos - a.length) := by omega
  rw [e, drop_append_right]
  congr 1
  omega

theorem runStart_eq {content : List Char} :
    ∀ (pos s : Nat), s ≤ pos →
      (∀ k, s ≤ k → k < pos → isNameChar (content.getD k ' ') = true) →
      (s = 0 ∨ isNameChar (content.getD (s - 1) ' ') = false) →
      runStart content pos = s := by
  intro pos
  induction pos with
  | zero =>
      intro s hs _ _
      have h0 : s = 0 := by omega
      subst h0
      rfl
  | succ k ih =>
      intro s hs hin hleft
      rcases Nat.lt_or_ge s (k + 1) with hlt | hge
      · have hk : isNameChar (content.getD k ' ') = true := hin k (by omega) (by omega)
        rw [runStart, hk, if_pos rfl]
        exact ih s (by omega) (fun j h1 h2 => hin j h1 (by omega)) hleft
      · have hse : s = k + 1 := by omega
        subst hse
        rcases hleft with h0 | hfalse
        · omega
        · rw [runStart]
          simp only [Nat.add_sub_cancel] at hfalse
          rw [hfalse]
          simp

theorem getD_inner {a n b : List Char} (hn : ∀ c ∈ n, isNameChar c = true)
    (k : Nat) (h1 : a.length ≤ k) (h2 : k < a.length + n.length) :
    isNameChar ((a ++ (n ++ b)).getD k ' ') = true := by
  rw [List.getD_append_right _ _ _ _ h1]
  have hk : k - a.length < n.length := by omega
  rw [List.getD_append _ _ _ _ hk, List.getD_eq_getElem _ _ hk]
  exact hn _ (List.getElem_mem hk)

/-- Word range on a document of the form `a ++ n ++ b` where
`n` is a name-character run bounded by non-name characters: every cursor
inside `n` produces the range of `n`. -/
theorem wordRangeAt_run (a n b : List Char)
    (hn : ∀ c ∈ n, isNameChar c = true) (hnn : n ≠ [])
    (ha : isNameChar (a.getD (a.length - 1) ' ') = false)
    (hb : ∀ y ys, b = y :: ys → isNameChar y = false)
    (pos : Nat) (h1 : a.length ≤ pos) (h2 : pos < a.length + n.length) :
    wordRangeAt (a ++ (n ++ b)) pos = some (a.length, a.length + n.length) := by
  unfold wordRangeAt
  rw [getD_inner hn pos h1 h2, if_pos rfl]
  have hrs : runStart (a ++ (n ++ b)) pos = a.length := by
    refine runStart_eq pos a.length h1 (fun k hk1 hk2 => getD_inner hn k hk1 (by omega)) ?_
    rcases Nat.eq_zero_or_pos a.length with h0 | hpos
    · exact Or.inl h0
    · refine Or.inr ?_
      rw [List.getD_append _ _ _ _ (by omega)]
      exact ha
  rw [hrs]
  have hdrop : (a ++ (n ++ b)).drop pos = n.drop (pos - a.length) ++ b := by
    rw [drop_append_sub _ _ _ h1, List.drop_append_of_le_length (by omega)]
  rw [hdrop]
  have htw : (n.drop (pos - a.length) ++ b).takeWhile isNameChar = n.drop (pos - a.length) := by
    have hall : ∀ c ∈ n.drop (pos - a.length), isNameChar c = true :=
      fun c hc => hn c (List.mem_of_mem_drop hc)
    cases b with
    | nil => rw [List.append_nil]; exact takeWhile_all hall
    | cons y ys => exact takeWhile_name_append hall (hb y ys rfl) ys
  rw [htw]
  have hlen : (n.drop (pos - a.length)).length = n.length - (pos - a.length) := by simp
  rw [hlen]
  have : pos + (n.length - (pos - a.length)) = a.length + n.length := by omega
  rw [this]

theorem Clean_of_balanced {m : List Char} (h : Balanced m) : Clean m := by
  induction h with
  | nil => exact Clean.nil
  | text t rest hg _ ih => exact Clean_of_goodText hg ih
  | elem n inner rest hv _ _ ih_inner ih_rest =>
      exact Clean.startTag n _ hv
        (Clean_append ih_inner (Clean.endTag n rest hv ih_rest))

theorem selfCloseTest_gt (xs : List Char) : selfCloseTest ('>' :: xs) = false := rfl

theorem pairDoc_reshape (n mid : List Char) :
    pairDoc n mid = ('<' :: n) ++ ('>' :: (mid ++ '<' :: '/' :: (n ++ ['>']))) := by
  simp [pairDoc]

/-- Forward matching over the tail of a `pairDoc` start anchor. -/
theorem findMatchedEndTag_pair {n mid : List Char} (hv : validName n)
    (hm : Balanced mid) :
    findMatchedEndTag n ('>' :: (mid ++ '<' :: '/' :: (n ++ ['>']))) = some (1 + mid.length) := by
  obtain ⟨T, hT, he⟩ := balanced_tokenizeFrom hm ('<' :: '/' :: (n ++ '>' :: [])) 1
  unfold findMatchedEndTag tokenize
  rw [tokenizeFrom_cons_none (tagMatch_of_ne '>' (by decide) _),
    show ('<' :: '/' :: (n ++ ['>']) : List Char) = '<' :: '/' :: (n ++ '>' :: []) from rfl, he,
    tokenizeFrom_endTag n hv.1 hv.2 [] (1 + mid.length)]
  rw [tokenizeFrom.eq_def]
  simp only []
  rw [findEndGo_balanced hT]
  simp [findEndGo]

theorem tokenizeFrom_nil (i : Nat) : tokenizeFrom [] i = [] := by
  rw [tokenizeFrom.eq_def]

/-- Backward matching over the prefix preceding a `pairDoc` end anchor. -/
theorem findMatchedStartTag_pair {n mid : List Char} (hv : validName n)
    (hm : Balanced mid) (name : List Char) :
    findMatchedStartTag name ('<' :: (n ++ '>' :: mid)) = some 0 := by
  obtain ⟨T, hT, he⟩ := balanced_tokenizeFrom hm [] (n.length + 2)
  unfold findMatchedStartTag tokenize
  rw [tokenizeFrom_startTag n hv.1 hv.2 mid 0,
    show (0 + n.length + 2) = n.length + 2 from by omega]
  rw [show tokenizeFrom mid (n.length + 2) = tokenizeFrom (mid ++ []) (n.length + 2) from by simp,
    he, tokenizeFrom_nil]
  rw [findStartGo, findStartGo_balanced hT]
  rfl

/-- The resolver on a `pairDoc` with the cursor inside the start-tag name:
both name ranges are returned. -/
theorem resolve_pair_start {n mid : List Char} (hv : validName n) (hm : Balanced mid)
    (pos : Nat) (h1 : 1 ≤ pos) (h2 : pos < 1 + n.length) :
    provideDocumentHighlights (pairDoc n mid) pos
      = .ok [(1, 1 + n.length),
             (4 + n.length + mid.length, 4 + n.length + mid.length + n.length)] := by
  have hword : wordRangeAt (pairDoc n mid) pos = some (1, 1 + n.length) := by
    have := wordRangeAt_run ['<'] n ('>' :: (mid ++ '<' :: '/' :: (n ++ ['>'])))
      hv.2 hv.1 (by decide) (by intro y ys hy; injection hy with h1 _; rw [← h1]; decide)
      pos (by simpa using h1) (by simpa using h2)
    simpa [pairDoc] using this
  have hname : slice (pairDoc n mid) 1 (1 + n.length) = n := by
    have := slice_append ['<'] (n ++ '>' :: (mid ++ '<' :: '/' :: (n ++ ['>']))) n.length
    simp only [List.length_cons, List.length_nil] at this
    rw [show (0 + 1 : Nat) = 1 from rfl] at this
    calc slice (pairDoc n mid) 1 (1 + n.length)
        = (n ++ '>' :: (mid ++ '<' :: '/' :: (n ++ ['>']))).take n.length := by
          rw [pairDoc]
          rw [show ('<' :: (n ++ '>' :: (mid ++ '<' :: '/' :: (n ++ ['>']))) : List Char)
            = ['<'] ++ (n ++ '>' :: (mid ++ '<' :: '/' :: (n ++ ['>']))) from rfl]
          exact this
      _ = n := List.take_left n _
  have hprev : prevE (pairDoc n mid) 1 1 = .ok ['<'] := by
    unfold prevE
    rw [show colAt (pairDoc n mid) 1 = 1 from by simp [colAt, pairDoc]]
    simp [slice, pairDoc]
  have hdrop : (pairDoc n mid).drop (1 + n.length)
      = '>' :: (mid ++ '<' :: '/' :: (n ++ ['>'])) := by
    rw [pairDoc_reshape]
    exact List.drop_left' (by simp [Nat.add_comm])
  have hclean : normalize ('>' :: (mid ++ '<' :: '/' :: (n ++ ['>'])))
      = '>' :: (mid ++ '<' :: '/' :: (n ++ ['>'])) := by
    refine normalize_clean (Clean.chr '>' _ (by decide) (by decide) (by decide) ?_)
    exact Clean_append (Clean_of_balanced hm)
      (Clean.endTag n [] hv Clean.nil)
  have hfind := findMatchedEndTag_pair hv hm
  unfold provideDocumentHighlights
  rw [hword]
  simp only [hname, hprev, Bind.bind, Except.bind, hdrop, hclean, selfCloseTest_gt,
    Bool.not_false, if_pos rfl, if_true, hfind]
  simp only [pure, Except.pure, Except.ok.injEq]
  have e1 : 1 + n.length + (1 + mid.length) + 2 = 4 + n.length + mid.length := by omega
  rw [e1]
  simp

/-- The resolver on a `pairDoc` with the cursor inside the end-tag name:
both name ranges are returned (end range first is the anchor). -/
theorem resolve_pair_end {n mid : List Char} (hv : validName n) (hm : Balanced mid)
    (pos : Nat) (h1 : 4 + n.length + mid.length ≤ pos)
    (h2 : pos < 4 + n.length + mid.length + n.length) :
    provideDocumentHighlights (pairDoc n mid) pos
      = .ok [(4 + n.length + mid.length, 4 + n.length + mid.length + n.length),
             (1, 1 + n.length)] := by
  have hBlen : ('<' :: (n ++ '>' :: mid) : List Char).length = 2 + n.length + mid.length := by
    simp
    omega
  have hdocB : pairDoc n mid
      = ('<' :: (n ++ '>' :: mid)) ++ ('<' :: '/' :: (n ++ ['>'])) := by
    simp [pairDoc]
  have hAlen : (('<' :: (n ++ '>' :: mid)) ++ ['<', '/'] : List Char).length
      = 4 + n.length + mid.length := by
    simp
    omega
  have hshapeA : (('<' :: (n ++ '>' :: mid)) ++ ['<', '/']) ++ (n ++ ['>'])
      = pairDoc n mid := by
    simp [pairDoc]
  have hword : wordRangeAt (pairDoc n mid) pos
      = some (4 + n.length + mid.length, 4 + n.length + mid.length + n.length) := by
    have ha : isNameChar (((('<' :: (n ++ '>' :: mid)) ++ ['<', '/'] : List Char)).getD
        ((('<' :: (n ++ '>' :: mid)) ++ ['<', '/'] : List Char).length - 1) ' ') = false := by
      have e1 : (('<' :: (n ++ '>' :: mid)) ++ ['<', '/'] : List Char).length - 1
          = ('<' :: (n ++ '>' :: mid) : List Char).length + 1 := by
        simp
        omega
      rw [e1, List.getD_append_right _ _ _ _ (by omega)]
      have e2 : ('<' :: (n ++ '>' :: mid) : List Char).length + 1
          - ('<' :: (n ++ '>' :: mid) : List Char).length = 1 := by omega
      rw [e2]
      decide
    have base := wordRangeAt_run (('<' :: (n ++ '>' :: mid)) ++ ['<', '/']) n ['>']
      hv.2 hv.1 ha (by intro y ys hy; injection hy with hx _; rw [← hx]; decide)
      pos (by rw [hAlen]; exact h1) (by rw [hAlen]; omega)
    rw [hAlen, hshapeA] at base
    exact base
  have hname : slice (pairDoc n mid) (4 + n.length + mid.length)
      (4 + n.length + mid.length + n.length) = n := by
    have base := slice_append (('<' :: (n ++ '>' :: mid)) ++ ['<', '/']) (n ++ ['>']) n.length
    rw [hAlen, hshapeA] at base
    rw [base]
    have : (n ++ ['>']).take n.length = n := List.take_left n ['>']
    exact this
  have hg2 : (pairDoc n mid).getD (2 + n.length + mid.length) ' ' = '<' := by
    rw [hdocB, List.getD_append_right _ _ _ _ (by rw [hBlen])]
    rw [show 2 + n.length + mid.length - ('<' :: (n ++ '>' :: mid) : List Char).length = 0
      from by rw [hBlen]; omega]
    rfl
  have hg1 : (pairDoc n mid).getD (2 + n.length + mid.length + 1) ' ' = '/' := by
    rw [hdocB, List.getD_append_right _ _ _ _ (by rw [hBlen]; omega)]
    rw [show 2 + n.length + mid.length + 1 - ('<' :: (n ++ '>' :: mid) : List Char).length = 1
      from by rw [hBlen]; omega]
    rfl
  have hcol : 2 ≤ colAt (pairDoc n mid) (4 + n.length + mid.length) := by
    rw [show 4 + n.length + mid.length = 2 + n.length + mid.length + 1 + 1 from by omega]
    rw [colAt]
    rw [hg1]
    rw [if_neg (by decide)]
    rw [colAt, hg2, if_neg (by decide)]
    omega
  have hp1 : prevE (pairDoc n mid) (4 + n.length + mid.length) 1 = .ok ['/'] := by
    unfold prevE
    rw [if_neg (by omega)]
    have base := slice_append (('<' :: (n ++ '>' :: mid)) ++ ['<']) ('/' :: (n ++ ['>'])) 1
    have hlen3 : (('<' :: (n ++ '>' :: mid)) ++ ['<'] : List Char).length
        = 3 + n.length + mid.length := by
      simp
      omega
    rw [hlen3] at base
    rw [show (('<' :: (n ++ '>' :: mid)) ++ ['<']) ++ ('/' :: (n ++ ['>'])) = pairDoc n mid
      from by simp [pairDoc]] at base
    rw [show 4 + n.length + mid.length - 1 = 3 + n.length + mid.length from by omega,
      show 4 + n.length + mid.length = 3 + n.length + mid.length + 1 from by omega, base]
    rfl
  have hp2 : prevE (pairDoc n mid) (4 + n.length + mid.length) 2 = .ok ['<', '/'] := by
    unfold prevE
    rw [if_neg (by omega)]
    have base := slice_append ('<' :: (n ++ '>' :: mid)) ('<' :: '/' :: (n ++ ['>'])) 2
    rw [hBlen, ← hdocB] at base
    rw [show 4 + n.length + mid.length - 2 = 2 + n.length + mid.length from by omega,
      show 4 + n.length + mid.length = 2 + n.length + mid.length + 2 from by omega, base]
    rfl
  have hElen : ((('<' :: (n ++ '>' :: mid)) ++ ('<' :: '/' :: n)) : List Char).length
      = 4 + n.length + mid.length + n.length := by
    simp
    omega
  have hdocE : pairDoc n mid = (('<' :: (n ++ '>' :: mid)) ++ ('<' :: '/' :: n)) ++ ['>'] := by
    simp [pairDoc]
  have hnext : nextChars (pairDoc n mid) (4 + n.length + mid.length + n.length) 1 = ['>'] := by
    unfold nextChars lineRemain
    have hdrop : (pairDoc n mid).drop (4 + n.length + mid.length + n.length) = ['>'] := by
      rw [hdocE]
      exact List.drop_left' hElen
    rw [hdrop]
    have base := slice_append (('<' :: (n ++ '>' :: mid)) ++ ('<' :: '/' :: n)) ['>'] 1
    rw [hElen, ← hdocE] at base
    simpa using base
  have htake : (pairDoc n mid).take (4 + n.length + mid.length - 2)
      = '<' :: (n ++ '>' :: mid) := by
    rw [show 4 + n.length + mid.length - 2 = 2 + n.length + mid.length from by omega,
      hdocB]
    exact List.take_left' hBlen
  have hcleanB : normalize ('<' :: (n ++ '>' :: mid)) = '<' :: (n ++ '>' :: mid) :=
    normalize_clean (Clean.startTag n mid hv (Clean_of_balanced hm))
  have hfindS := findMatchedStartTag_pair hv hm n
  unfold provideDocumentHighlights
  rw [hword]
  simp only [hname, hp1, hp2, Bind.bind, Except.bind, hnext, htake, hcleanB, hfindS]
  simp [pure, Except.pure]

/-! ## Length preservation of `normalize` -/

theorem commentClose_le : ∀ (cs : List Char) (k : Nat), commentClose cs = some k → k ≤ cs.length := by
  intro cs
  induction cs using commentClose.induct with
  | case1 tail =>
      intro k h
      rw [commentClose.eq_1] at h
      simp only [Option.some.injEq] at h
      simp only [List.length_cons]
      omega
  | case2 c rest hno hlt =>
      intro k h
      rw [commentClose.eq_2 c rest hno, if_pos hlt] at h
      simp at h
  | case3 c rest hno hlt ih =>
      intro k h
      rw [commentClose.eq_2 c rest hno, if_neg hlt] at h
      simp only [Option.map_eq_some'] at h
      obtain ⟨k2, hk2, hk⟩ := h
      have := ih k2 hk2
      simp only [List.length_cons]
      omega
  | case4 =>
      intro k h
      simp [commentClose] at h

theorem quoteClose_le (q : Char) :
    ∀ (cs : List Char) (k : Nat), quoteClose q cs = some k → k ≤ cs.length := by
  intro cs
  induction cs with
  | nil =>
      intro k h
      simp [quoteClose] at h
  | cons c rest ih =>
      intro k h
      rw [quoteClose.eq_2] at h
      by_cases hc : c = q
      · rw [if_pos hc] at h
        simp only [Option.some.injEq] at h
        simp only [List.length_cons]
        omega
      · rw [if_neg hc] at h
        simp only [Option.map_eq_some'] at h
        obtain ⟨k2, hk2, hk⟩ := h
        have := ih k2 hk2
        simp only [List.length_cons]
        omega

theorem selfCloseClose_le :
    ∀ (p : Char) (cs : List Char) (k : Nat), selfCloseClose p cs = some k → k ≤ cs.length := by
  intro p cs
  induction p, cs using selfCloseClose.induct with
  | case1 tail =>
      intro k h
      rw [selfCloseClose.eq_1, if_pos rfl] at h
      simp only [Option.some.injEq] at h
      simp only [List.length_cons]
      omega
  | case2 p tail hp =>
      intro k h
      rw [selfCloseClose.eq_1, if_neg hp] at h
      simp at h
  | case3 x tail =>
      intro k h
      simp [selfCloseClose] at h
  | case4 x c rest hgt hlt ih =>
      intro k h
      rw [selfCloseClose.eq_3 x c rest hgt hlt] at h
      simp only [Option.map_eq_some'] at h
      obtain ⟨k2, hk2, hk⟩ := h
      have := ih k2 hk2
      simp only [List.length_cons]
      omega
  | case5 x =>
      intro k h
      simp [selfCloseClose] at h

theorem commentMatch_le (cs : List Char) (k : Nat) (h : commentMatch cs = some k) :
    k ≤ cs.length := by
  rw [commentMatch.eq_def] at h
  split at h
  · simp only [Option.map_eq_some'] at h
    obtain ⟨k2, hk2, hk⟩ := h
    have := commentClose_le _ k2 hk2
    simp only [List.length_cons]
    omega
  · simp at h

theorem quoteMatch_le (cs : List Char) (k : Nat) (h : quoteMatch cs = some k) :
    k ≤ cs.length := by
  rw [quoteMatch.eq_def] at h
  split at h <;>
    first
      | (simp only [Option.map_eq_some'] at h
         obtain ⟨k2, hk2, hk⟩ := h
         have := quoteClose_le _ _ k2 hk2
         simp only [List.length_cons]
         omega)
      | simp at h

theorem selfCloseMatch_le (cs : List Char) (k : Nat) (h : selfCloseMatch cs = some k) :
    k ≤ cs.length := by
  rw [selfCloseMatch.eq_def] at h
  split at h
  · rename_i rest
    simp only at h
    split at h
    · simp at h
    · split at h
      · rename_i heq
        split at h
        · simp only [Option.map_eq_some'] at h
          obtain ⟨k2, hk2, hk⟩ := h
          have hk2le := selfCloseClose_le _ _ k2 hk2
          have hlen : (List.drop (rest.takeWhile isNameChar).length rest).length
              = rest.length - (rest.takeWhile isNameChar).length := by simp
          rw [heq] at hlen
          simp only [List.length_cons] at hlen
          simp only [List.length_cons]
          omega
        · simp at h
      · simp at h
  · simp at h

theorem replaceBlank_length {m : List Char → Option Nat}
    (hb : ∀ cs k, m cs = some k → k ≤ cs.length) :
    ∀ cs : List Char, (replaceBlank m cs).length = cs.length := by
  have main : ∀ (fuel : Nat) (cs : List Char), cs.length ≤ fuel →
      (replaceBlank m cs).length = cs.length := by
    intro fuel
    induction fuel with
    | zero =>
        intro cs h
        have hnil : cs = [] := by
          cases cs with
          | nil => rfl
          | cons a b => simp at h
        subst hnil
        rw [replaceBlank.eq_def]
    | succ f ih =>
        intro cs h
        match cs with
        | [] => rw [replaceBlank.eq_def]
        | c :: rest =>
            rw [replaceBlank.eq_def]
            cases hm2 : m (c :: rest) with
            | none =>
                simp only [hm2, List.length_cons]
                rw [ih rest (by simp at h; omega)]
            | some len =>
                simp only [hm2]
                by_cases hz : len = 0
                · rw [dif_pos hz]
                  simp only [List.length_cons]
                  rw [ih rest (by simp at h; omega)]
                · rw [dif_neg hz]
                  have hle := hb _ _ hm2
                  have hrec := ih ((c :: rest).drop len)
                    (by simp only [List.length_drop, List.length_cons]; simp at h; omega)
                  simp only [List.length_append, blanks, List.length_replicate, hrec,
                    List.length_drop]
                  simp only [List.length_cons] at hle ⊢
                  omega
  exact fun cs => main cs.length cs (Nat.le_refl _)

/-- Length preservation: `normalize` never changes the length of its input. -/
theorem normalize_length (content : List Char) :
    (normalize content).length = content.length := by
  unfold normalize
  rw [replaceBlank_length selfCloseMatch_le, replaceBlank_length quoteMatch_le,
    replaceBlank_length commentMatch_le]

/-! ## Offsets returned by the forward matcher point at end tags -/

theorem slice_drop (k : Nat) :
    ∀ (cs : List Char) (s e : Nat), slice (cs.drop k) s e = slice cs (k + s) (k + e) := by
  induction k with
  | zero => intro cs s e; simp
  | succ k2 ih =>
      intro cs s e
      match cs with
      | [] => simp [slice]
      | c :: rest =>
          rw [List.drop_succ_cons]
          rw [ih rest s e]
          rw [show k2 + 1 + s = (k2 + s) + 1 from by omega,
            show k2 + 1 + e = (k2 + e) + 1 from by omega]
          rw [slice_cons_shift]

theorem tagMatch_true_inv (cs n : List Char) (len : Nat)
    (h : tagMatch cs = some (true, n, len)) :
    ∃ rest2, cs = '<' :: '/' :: (n ++ rest2) ∧ len = n.length + 3 := by
  rw [tagMatch.eq_def] at h
  split at h
  · rename_i rest
    split at h
    · simp at h
    · split at h
      · simp only [Option.some.injEq, Prod.mk.injEq] at h
        obtain ⟨-, hn, hl⟩ := h
        refine ⟨rest.dropWhile isNameChar, ?_, ?_⟩
        · rw [← hn, List.takeWhile_append_dropWhile]
        · rw [← hn]
          omega
      · simp at h
  · split at h
    · simp at h
    · simp at h
  · simp at h

theorem tokenizeFrom_end_sound :
    ∀ (fuel : Nat) (cs : List Char), cs.length ≤ fuel → ∀ (i : Nat) (n : List Char) (j : Nat),
      TagToken.endTag n j ∈ tokenizeFrom cs i →
      i ≤ j ∧ slice cs (j - i) (j - i + 2) = ['<', '/']
        ∧ slice cs (j - i + 2) (j - i + 2 + n.length) = n := by
  intro fuel
  induction fuel with
  | zero =>
      intro cs h i n j hmem
      have : cs = [] := by
        cases cs with
        | nil => rfl
        | cons a b => simp at h
      subst this
      rw [tokenizeFrom_nil] at hmem
      simp at hmem
  | succ f ih =>
      intro cs h i n j hmem
      match cs with
      | [] =>
          rw [tokenizeFrom_nil] at hmem
          simp at hmem
      | c :: rest =>
          rw [tokenizeFrom.eq_def] at hmem
          simp only at hmem
          cases hm : tagMatch (c :: rest) with
          | none =>
              rw [hm] at hmem
              have hrec := ih rest (by simp at h; omega) (i + 1) n j hmem
              obtain ⟨hij, hs1, hs2⟩ := hrec
              have hj : j - i = (j - (i + 1)) + 1 := by omega
              refine ⟨by omega, ?_, ?_⟩
              · rw [hj, show (j - (i + 1)) + 1 + 2 = ((j - (i + 1)) + 2) + 1 from by omega,
                  slice_cons_shift]
                exact hs1
              · rw [hj, show (j - (i + 1)) + 1 + 2 = ((j - (i + 1)) + 2) + 1 from by omega,
                  show (j - (i + 1)) + 2 + 1 + n.length = ((j - (i + 1)) + 2 + n.length) + 1
                    from by omega, slice_cons_shift]
                exact hs2
          | some tpl =>
              obtain ⟨isEnd, n0, len⟩ := tpl
              rw [hm] at hmem
              have hlen1 : 1 ≤ len := tagMatch_len_pos _ _ _ _ hm
              rw [List.mem_cons] at hmem
              cases hmem with
              | inl hhead =>
                  cases isEnd with
                  | false => simp at hhead
                  | true =>
                      simp only [TagToken.endTag.injEq, reduceIte] at hhead
                      obtain ⟨rfl, rfl⟩ := hhead
                      obtain ⟨rest2, hcs, hlen⟩ := tagMatch_true_inv _ _ _ hm
                      refine ⟨Nat.le_refl _, ?_, ?_⟩
                      · rw [Nat.sub_self]
                        rw [hcs]
                        rfl
                      · rw [Nat.sub_self]
                        injection hcs with hc1 hc2
                        rw [hc2]
                        rw [show (0 + 2 : Nat) = 1 + 1 from rfl,
                          show 0 + 2 + n.length = (n.length + 1) + 1 from by omega]
                        rw [slice_cons_shift]
                        rw [show (1 : Nat) = 0 + 1 from rfl,
                          show n.length + 1 = n.length + 1 from rfl]
                        rw [slice_cons_shift]
                        unfold slice
                        rw [List.drop_zero, List.take_left]
              | inr htail =>
                  have hlrec : (rest.drop (len - 1)).length ≤ f := by
                    simp only [List.length_drop]
                    simp at h
                    omega
                  have hrec := ih (rest.drop (len - 1)) hlrec (i + len) n j htail
                  obtain ⟨hij, hs1, hs2⟩ := hrec
                  have hshift1 : slice (rest.drop (len - 1)) (j - (i + len)) (j - (i + len) + 2)
                      = slice rest ((len - 1) + (j - (i + len))) ((len - 1) + (j - (i + len) + 2)) :=
                    slice_drop (len - 1) rest _ _
                  have hshift2 : slice (rest.drop (len - 1)) (j - (i + len) + 2)
                        (j - (i + len) + 2 + n.length)
                      = slice rest ((len - 1) + (j - (i + len) + 2))
                        ((len - 1) + (j - (i + len) + 2 + n.length)) :=
                    slice_drop (len - 1) rest _ _
                  rw [hshift1] at hs1
                  rw [hshift2] at hs2
                  refine ⟨by omega, ?_, ?_⟩
                  · rw [show j - i = ((len - 1) + (j - (i + len))) + 1 from by omega,
                      show ((len - 1) + (j - (i + len))) + 1 + 2
                        = ((len - 1) + (j - (i + len) + 2)) + 1 from by omega,
                      slice_cons_shift]
                    exact hs1
                  · rw [show j - i + 2 = ((len - 1) + (j - (i + len) + 2)) + 1 from by omega,
                      show ((len - 1) + (j - (i + len) + 2)) + 1 + n.length
                        = ((len - 1) + (j - (i + len) + 2 + n.length)) + 1 from by omega,
                      slice_cons_shift]
                    exact hs2

theorem findEndGo_mem :
    ∀ (ts : List TagToken) (name : List Char) (stack : List (List Char)) (j : Nat),
      findEndGo name ts stack = some j → TagToken.endTag name j ∈ ts := by
  intro ts
  induction ts with
  | nil => intro name stack j h; simp [findEndGo] at h
  | cons t ts2 ih =>
      intro name stack j h
      cases t with
      | startTag n off =>
          rw [findEndGo] at h
          exact List.mem_cons_of_mem _ (ih name _ j h)
      | endTag n off =>
          cases stack with
          | nil =>
              rw [findEndGo] at h
              by_cases hn : n = name
              · rw [if_pos hn] at h
                simp only [Option.some.injEq] at h
                rw [hn, h]
                exact List.mem_cons_self _ _
              · rw [if_neg hn] at h
                exact List.mem_cons_of_mem _ (ih name _ j h)
          | cons last stack2 =>
              rw [findEndGo] at h
              by_cases hl : last ≠ n
              · rw [if_pos hl] at h
                simp at h
              · rw [if_neg hl] at h
                exact List.mem_cons_of_mem _ (ih name _ j h)

/-- Every offset reported by `findMatchedEndTag` is the position of the `<`
of an end tag `</name>` in the scanned text: `</` sits at the offset and the
name itself starts two characters later. -/
theorem findMatchedEndTag_offset (name t : List Char) (j : Nat)
    (h : findMatchedEndTag name t = some j) :
    slice t j (j + 2) = ['<', '/'] ∧ slice t (j + 2) (j + 2 + name.length) = name := by
  have hmem := findEndGo_mem _ _ _ _ h
  have hsound := tokenizeFrom_end_sound t.length t (Nat.le_refl _) 0 name j hmem
  obtain ⟨-, hs1, hs2⟩ := hsound
  simp only [Nat.sub_zero] at hs1 hs2
  exact ⟨hs1, hs2⟩

/-! ## What the comment pass does and does not blank -/

/-- Whether the close marker `-->` occurs anywhere in the text. -/
def hasClose : List Char → Bool
  | '-' :: '-' :: '>' :: _ => true
  | _ :: rest => hasClose rest
  | [] => false

theorem lineTerm_ne {c : Char} (h : isLineTerm c = true) : c ≠ '-' ∧ c ≠ '>' := by
  constructor <;> rintro rfl <;> simp [isLineTerm] at h

theorem hasClose_tail {d : Char} {pre : List Char} (h : hasClose (d :: pre) = false) :
    hasClose pre = false := by
  rw [hasClose.eq_def] at h
  split at h
  · simp at h
  · rename_i heq
    injection heq with h1 h2
    rw [h2]
    exact h
  · rename_i heq
    exact absurd heq (by simp)

/-- The lazy comment scan fails on content that reaches a line terminator
before any close marker. -/
theorem commentClose_lineTerm : ∀ (pre : List Char) {c : Char} (rest : List Char),
    hasClose pre = false → isLineTerm c = true →
    commentClose (pre ++ c :: rest) = none := by
  intro pre
  induction pre with
  | nil =>
      intro c rest _ hc
      rw [List.nil_append,
        commentClose.eq_2 c rest (fun tail hd _ => absurd hd (lineTerm_ne hc).1),
        if_pos hc]
  | cons d pre2 ih =>
      intro c rest hno hc
      have hguard : ∀ (tail : List Char),
          d = '-' → pre2 ++ c :: rest = '-' :: '>' :: tail → False := by
        intro tail hd heq
        subst hd
        cases pre2 with
        | nil =>
            rw [List.nil_append] at heq
            injection heq with h1 _
            exact (lineTerm_ne hc).1 h1
        | cons e pre3 =>
            rw [List.cons_append] at heq
            injection heq with h1 h2
            subst h1
            cases pre3 with
            | nil =>
                rw [List.nil_append] at h2
                injection h2 with h3 _
                exact (lineTerm_ne hc).2 h3
            | cons f pre4 =>
                rw [List.cons_append] at h2
                injection h2 with h3 _
                subst h3
                rw [hasClose.eq_1] at hno
                simp at hno
      rw [List.cons_append, commentClose.eq_2 d (pre2 ++ c :: rest) hguard]
      by_cases hd : isLineTerm d = true
      · rw [if_pos hd]
      · rw [if_neg hd, ih rest (hasClose_tail hno) hc]
        rfl

/-- A comment whose content contains a line terminator before any close
marker is not matched by the comment pattern at all. -/
theorem commentMatch_lineTerm (pre : List Char) {c : Char} (rest : List Char)
    (hno : hasClose pre = false) (hc : isLineTerm c = true) :
    commentMatch ('<' :: '!' :: '-' :: '-' :: (pre ++ c :: rest)) = none := by
  rw [commentMatch.eq_def]
  simp only [commentClose_lineTerm pre rest hno hc]
  rfl

/-- The lazy comment scan consumes exactly up to the appended close marker
when the content has no line terminators and no `-` (so the appended `-->`
is the nearest close marker). -/
theorem commentClose_exact : ∀ (inner rest : List Char),
    (∀ c ∈ inner, isLineTerm c = false ∧ c ≠ '-') →
    commentClose (inner ++ '-' :: '-' :: '>' :: rest) = some (inner.length + 3) := by
  intro inner
  induction inner with
  | nil =>
      intro rest _
      rw [List.nil_append, commentClose.eq_1]
      simp
  | cons d inner2 ih =>
      intro rest h
      have hd := h d (by simp)
      have hguard : ∀ (tail : List Char),
          d = '-' → inner2 ++ '-' :: '-' :: '>' :: rest = '-' :: '>' :: tail → False :=
        fun tail hd2 _ => absurd hd2 hd.2
      rw [List.cons_append, commentClose.eq_2 d _ hguard, if_neg (by rw [hd.1]; simp),
        ih rest (fun c hc => h c (by simp [hc]))]
      simp only [Option.map_some', Option.some.injEq, List.length_cons]

/-- A single-line comment at the head of the text is blanked as a whole by
the comment pass, which then continues after its close marker. -/
theorem stripComments_comment (inner rest : List Char)
    (h : ∀ c ∈ inner, isLineTerm c = false ∧ c ≠ '-') :
    replaceBlank commentMatch ('<' :: '!' :: '-' :: '-' :: (inner ++ '-' :: '-' :: '>' :: rest))
      = blanks (inner.length + 7) ++ replaceBlank commentMatch rest := by
  have hmatch : commentMatch ('<' :: '!' :: '-' :: '-' :: (inner ++ '-' :: '-' :: '>' :: rest))
      = some (inner.length + 7) := by
    rw [commentMatch.eq_def]
    simp only [commentClose_exact inner rest h]
    simp only [Option.map_some', Option.some.injEq]
    omega
  rw [replaceBlank.eq_def]
  simp only [hmatch]
  rw [dif_neg (by omega)]
  congr 1
  have hsplit : ('<' :: '!' :: '-' :: '-' :: (inner ++ '-' :: '-' :: '>' :: rest) : List Char)
      = ('<' :: '!' :: '-' :: '-' :: (inner ++ ['-', '-', '>'])) ++ rest := by
    simp
  rw [hsplit, List.drop_left' (by simp)]

/-! ## Bare self-closing tags, nested documents, and slices -/

/-- Normalization leaves a bare attribute-less self-closing tag `<name/>`
unchanged: the self-closing pass requires whitespace before `/>`. -/
theorem normalize_bareSelfClose {n : List Char} (hv : validName n) :
    normalize ('<' :: (n ++ ['/', '>'])) = '<' :: (n ++ ['/', '>']) :=
  normalize_clean (Clean.selfClose n [] hv Clean.nil)

/-- The resolver on a bare self-closing document `<name/>` with the cursor
inside the name: the downstream `^[^<>]*\\/>` check fires and only the
anchor range is returned. -/
theorem resolve_bareSelfClose {n : List Char} (hv : validName n)
    (pos : Nat) (h1 : 1 ≤ pos) (h2 : pos < 1 + n.length) :
    provideDocumentHighlights ('<' :: (n ++ ['/', '>'])) pos
      = .ok [(1, 1 + n.length)] := by
  have hword : wordRangeAt ('<' :: (n ++ ['/', '>'])) pos = some (1, 1 + n.length) := by
    have := wordRangeAt_run ['<'] n ['/', '>'] hv.2 hv.1 (by decide)
      (by intro y ys hy; injection hy with hx _; rw [← hx]; decide)
      pos (by simpa using h1) (by simpa using h2)
    simpa using this
  have hprev : prevE ('<' :: (n ++ ['/', '>'])) 1 1 = .ok ['<'] := by
    unfold prevE
    rw [show colAt ('<' :: (n ++ ['/', '>'])) 1 = 1 from by simp [colAt]]
    simp [slice]
  have hdrop : ('<' :: (n ++ ['/', '>'])).drop (1 + n.length) = ['/', '>'] := by
    rw [show ('<' :: (n ++ ['/', '>']) : List Char) = ('<' :: n) ++ ['/', '>'] from by simp]
    exact List.drop_left' (by simp [Nat.add_comm])
  have hclean : normalize ['/', '>'] = ['/', '>'] :=
    normalize_clean (Clean.chr '/' _ (by decide) (by decide) (by decide)
      (Clean.chr '>' _ (by decide) (by decide) (by decide) Clean.nil))
  unfold provideDocumentHighlights
  rw [hword]
  simp only [hprev, Bind.bind, Except.bind, hdrop, hclean]
  simp [selfCloseTest, pure, Except.pure]

theorem nestedDoc_balanced : ∀ d : Nat, Balanced (nestedDoc d) := by
  intro d
  induction d with
  | zero =>
      have := Balanced.text ['x'] [] (by intro c hc; simp at hc; subst hc; refine ⟨by decide, by decide, by decide⟩) Balanced.nil
      simpa using this
  | succ d2 ih =>
      have hv : validName ['v', 'i', 'e', 'w'] := ⟨by simp, by decide⟩
      exact Balanced.elem ['v', 'i', 'e', 'w'] (nestedDoc d2) [] hv ih Balanced.nil

theorem nestedDoc_length : ∀ d : Nat, (nestedDoc d).length = 13 * d + 1 := by
  intro d
  induction d with
  | zero => rfl
  | succ d2 ih =>
      show (pairDoc ['v', 'i', 'e', 'w'] (nestedDoc d2)).length = 13 * (d2 + 1) + 1
      simp [pairDoc, ih]
      omega

theorem pairDoc_end_slice (n mid : List Char) :
    slice (pairDoc n mid) (4 + n.length + mid.length)
      (4 + n.length + mid.length + n.length) = n := by
  have hAlen : (('<' :: (n ++ '>' :: mid)) ++ ['<', '/'] : List Char).length
      = 4 + n.length + mid.length := by
    simp
    omega
  have hshapeA : (('<' :: (n ++ '>' :: mid)) ++ ['<', '/']) ++ (n ++ ['>'])
      = pairDoc n mid := by
    simp [pairDoc]
  have base := slice_append (('<' :: (n ++ '>' :: mid)) ++ ['<', '/']) (n ++ ['>']) n.length
  rw [hAlen, hshapeA] at base
  rw [base]
  exact List.take_left n ['>']

theorem pairDoc_start_slice (n mid : List Char) :
    slice (pairDoc n mid) 1 (1 + n.length) = n := by
  have base := slice_append ['<'] (n ++ '>' :: (mid ++ '<' :: '/' :: (n ++ ['>']))) n.length
  simp only [List.length_cons, List.length_nil] at base
  rw [show (0 + 1 : Nat) = 1 from rfl] at base
  rw [show (['<'] ++ (n ++ '>' :: (mid ++ '<' :: '/' :: (n ++ ['>']))) : List Char)
    = pairDoc n mid from by simp [pairDoc]] at base
  rw [base]
  have : (n ++ '>' :: (mid ++ '<' :: '/' :: (n ++ ['>']))).take n.length = n :=
    List.take_left n _
  exact this

/-! ## The claims -/

/-- Claim C1: for every well-formed document fragment consisting of a start
tag, well-formed content and the matching end tag, with a name in `[\\w:-]+`,
invoking `provideDocumentHighlights` with the anchor anywhere on the
start-tag name or on the end-tag name returns both the start-name range and
the end-name range, and the document text of each returned range equals the
tag name. -/
theorem claim_C1 (n mid : List Char) (hv : validName n) (hm : Balanced mid) :
    (∀ pos, 1 ≤ pos → pos < 1 + n.length →
        provideDocumentHighlights (pairDoc n mid) pos
          = .ok [(1, 1 + n.length),
                 (4 + n.length + mid.length, 4 + n.length + mid.length + n.length)])
    ∧ (∀ pos, 4 + n.length + mid.length ≤ pos →
          pos < 4 + n.length + mid.length + n.length →
        provideDocumentHighlights (pairDoc n mid) pos
          = .ok [(4 + n.length + mid.length, 4 + n.length + mid.length + n.length),
                 (1, 1 + n.length)])
    ∧ slice (pairDoc n mid) 1 (1 + n.length) = n
    ∧ slice (pairDoc n mid) (4 + n.length + mid.length)
        (4 + n.length + mid.length + n.length) = n :=
  ⟨fun pos h1 h2 => resolve_pair_start hv hm pos h1 h2,
   fun pos h1 h2 => resolve_pair_end hv hm pos h1 h2,
   pairDoc_start_slice n mid, pairDoc_end_slice n mid⟩

theorem claim_C1_witness :
    provideDocumentHighlights ['<', 'v', '>', 'x', '<', '/', 'v', '>'] 1
      = .ok [(1, 2), (6, 7)]
    ∧ provideDocumentHighlights ['<', 'v', '>', 'x', '<', '/', 'v', '>'] 6
      = .ok [(6, 7), (1, 2)] := by
  have hg : goodText ['x'] := by
    intro c hc
    simp at hc
    subst hc
    exact ⟨by decide, by decide, by decide⟩
  have hm : Balanced ['x'] := by
    simpa using Balanced.text ['x'] [] hg Balanced.nil
  have h := claim_C1 ['v'] ['x'] ⟨by simp, by decide⟩ hm
  constructor
  · have h1 := h.1 1 (by decide) (by decide)
    simpa [pairDoc] using h1
  · have h2 := h.2.1 6 (by decide) (by decide)
    simpa [pairDoc] using h2

/-- Claim C2: `normalize` returns a string of exactly the same length as its
input (every blanked span is replaced by an equal-length run of spaces), so
every offset computed against the normalized text is valid against the
original text. -/
theorem claim_C2 : ∀ text : List Char, (normalize text).length = text.length :=
  normalize_length

/-- Claim C3: for nested same-named tags to any depth (`nestedDoc (d+1)` is
`d+1` nested `<view>` elements around `x`), anchoring on the first start
tag's name returns the range of the outermost matching end tag — the last
`</view>`, whose name occupies the final five characters but one of the
document — not an inner one. -/
theorem claim_C3 : ∀ (d pos : Nat), 1 ≤ pos → pos < 5 →
    provideDocumentHighlights (nestedDoc (d + 1)) pos
      = .ok [(1, 5), (13 * d + 9, 13 * d + 13)]
    ∧ (nestedDoc (d + 1)).length = 13 * d + 14
    ∧ slice (nestedDoc (d + 1)) (13 * d + 9) (13 * d + 13) = ['v', 'i', 'e', 'w'] := by
  intro d pos h1 h2
  have hv : validName ['v', 'i', 'e', 'w'] := ⟨by simp, by decide⟩
  have hm := nestedDoc_balanced d
  have hM := nestedDoc_length d
  have e1 : 4 + (['v', 'i', 'e', 'w'] : List Char).length + (nestedDoc d).length
      = 13 * d + 9 := by
    rw [hM]
    simp
    omega
  have e2 : 13 * d + 9 + (['v', 'i', 'e', 'w'] : List Char).length = 13 * d + 13 := by
    simp
  have e3 : 1 + (['v', 'i', 'e', 'w'] : List Char).length = 5 := by simp
  refine ⟨?_, ?_, ?_⟩
  · have hres := resolve_pair_start hv hm pos h1 (by simpa using h2)
    rw [e1, e2, e3] at hres
    exact hres
  · have := nestedDoc_length (d + 1)
    rw [this]
    omega
  · have hsl := pairDoc_end_slice ['v', 'i', 'e', 'w'] (nestedDoc d)
    rw [e1, e2] at hsl
    exact hsl

theorem claim_C3_witness :
    nestedDoc 2 = ['<', 'v', 'i', 'e', 'w', '>', '<', 'v', 'i', 'e', 'w', '>', 'x',
      '<', '/', 'v', 'i', 'e', 'w', '>', '<', '/', 'v', 'i', 'e', 'w', '>']
    ∧ provideDocumentHighlights (nestedDoc 2) 1 = .ok [(1, 5), (22, 26)] := by
  constructor
  · rfl
  · have h := (claim_C3 1 1 (by decide) (by decide)).1
    norm_num at h
    exact h

/-- Claim C4 as stated is false: on a popped-name mismatch the backward
matcher stops scanning but still returns the offset of the topmost entry
left on the stack.  On `"<a><b></c>"` the pop of `b` against `c` mismatches,
yet the function reports offset `0` (the leftover `<a`) instead of no
match. -/
theorem claim_C4_counterexample :
    tokenize ['<', 'a', '>', '<', 'b', '>', '<', '/', 'c', '>']
      = [TagToken.startTag ['a'] 0, TagToken.startTag ['b'] 3, TagToken.endTag ['c'] 6]
    ∧ findMatchedStartTag ['x'] ['<', 'a', '>', '<', 'b', '>', '<', '/', 'c', '>'] = some 0 := by
  constructor
  · simp [tokenize, tokenizeFrom, tagMatch, isNameChar]
  · simp [findMatchedStartTag, findStartGo, tokenize, tokenizeFrom, tagMatch, isNameChar]

/-- Claim C4, amended: when the backward matcher meets an end token with an
empty stack it aborts and reports no match; when a popped name mismatches
the end token's name it stops scanning early, but still returns the offset
of the topmost stack entry that remains — no match only when the stack is
then empty. -/
theorem claim_C4_amended :
    (∀ (name t n : List Char) (o : Nat) (ts : List TagToken),
        tokenize t = TagToken.endTag n o :: ts →
        findMatchedStartTag name t = none)
    ∧ (∀ (name t m n : List Char) (i o : Nat) (ts : List TagToken), m ≠ n →
        tokenize t = TagToken.startTag m i :: TagToken.endTag n o :: ts →
        findMatchedStartTag name t = none)
    ∧ (∀ (name t m1 m2 n : List Char) (i1 i2 o : Nat) (ts : List TagToken), m2 ≠ n →
        tokenize t = TagToken.startTag m1 i1 :: TagToken.startTag m2 i2 ::
          TagToken.endTag n o :: ts →
        findMatchedStartTag name t = some i1) := by
  refine ⟨?_, ?_, ?_⟩
  · intro name t n o ts h
    unfold findMatchedStartTag
    rw [h]
    rfl
  · intro name t m n i o ts hmn h
    unfold findMatchedStartTag
    rw [h, findStartGo, findStartGo]
    rw [if_pos hmn]
  · intro name t m1 m2 n i1 i2 o ts hmn h
    unfold findMatchedStartTag
    rw [h, findStartGo, findStartGo, findStartGo]
    rw [if_pos hmn]

theorem claim_C4_witness :
    findMatchedStartTag ['v'] ['<', '/', 'a', '>'] = none
    ∧ findMatchedStartTag ['v'] ['<', 'b', '>', '<', '/', 'c', '>'] = none
    ∧ findMatchedStartTag ['v'] ['<', 'a', '>', '<', 'b', '>', '<', '/', 'q', '>'] = some 0 := by
  refine ⟨?_, ?_, ?_⟩
  · exact claim_C4_amended.1 ['v'] _ ['a'] 0 []
      (by simp [tokenize, tokenizeFrom, tagMatch, isNameChar])
  · exact claim_C4_amended.2.1 ['v'] _ ['b'] ['c'] 0 3 [] (by decide)
      (by simp [tokenize, tokenizeFrom, tagMatch, isNameChar])
  · exact claim_C4_amended.2.2 ['v'] _ ['a'] ['b'] ['q'] 0 3 6 [] (by decide)
      (by simp [tokenize, tokenizeFrom, tagMatch, isNameChar])

/-- Claim C5 as stated is false: at depth zero an end token whose name
differs from the searched name does not abort the forward scan — the token
is skipped and the scan continues, so on `"</b></a>"` searching for `a` the
matcher returns the later `</a>` at offset `4` instead of no match. -/
theorem claim_C5_counterexample :
    findMatchedEndTag ['a'] ['<', '/', 'b', '>', '<', '/', 'a', '>'] = some 4 := by
  simp [findMatchedEndTag, findEndGo, tokenize, tokenizeFrom, tagMatch, isNameChar]

/-- Claim C5, amended: when the forward matcher meets a depth-zero end
token whose name differs from the searched name it does not abort — the
token is skipped with the stack left empty, and a later depth-zero end
token of the searched name is still returned. -/
theorem claim_C5_amended :
    ∀ (name t n : List Char) (o o2 : Nat) (ts : List TagToken), n ≠ name →
      tokenize t = TagToken.endTag n o :: TagToken.endTag name o2 :: ts →
      findMatchedEndTag name t = some o2 := by
  intro name t n o o2 ts hn h
  unfold findMatchedEndTag
  rw [h, findEndGo]
  rw [if_neg hn, findEndGo, if_pos rfl]

theorem claim_C5_witness :
    findMatchedEndTag ['a'] ['<', '/', 'b', '>', '<', '/', 'a', '>'] ≠ none := by
  have := claim_C5_amended ['a'] ['<', '/', 'b', '>', '<', '/', 'a', '>'] ['b'] 0 4 []
    (by decide) (by simp [tokenize, tokenizeFrom, tagMatch, isNameChar])
  rw [this]
  simp

/-- Claim C6 as stated is false: `findMatchedEndTag` returns `mat.index` —
the position of the `<` that opens the matching `</name>` — not the
position of the name two characters later.  On `"</a>"` it returns `0`,
while the name `a` sits at offset `2`. -/
theorem claim_C6_counterexample :
    findMatchedEndTag ['a'] ['<', '/', 'a', '>'] = some 0
    ∧ findMatchedEndTag ['a'] ['<', '/', 'a', '>'] ≠ some 2 := by
  have h : findMatchedEndTag ['a'] ['<', '/', 'a', '>'] = some 0 := by
    simp [findMatchedEndTag, findEndGo, tokenize, tokenizeFrom, tagMatch, isNameChar]
  exact ⟨h, by rw [h]; simp⟩

/-- Claim C6, amended: the offset returned by `findMatchedEndTag` is the
index of the `<` of the matching end tag within the scanned slice: `</`
occupies the two characters at the offset and the tag name starts two
characters after it (the resolver adds those two characters itself). -/
theorem claim_C6_amended (name t : List Char) (j : Nat)
    (h : findMatchedEndTag name t = some j) :
    slice t j (j + 2) = ['<', '/'] ∧ slice t (j + 2) (j + 2 + name.length) = name :=
  findMatchedEndTag_offset name t j h

theorem claim_C6_witness :
    slice ['<', '/', 'a', '>'] 0 2 = ['<', '/']
    ∧ slice ['<', '/', 'a', '>'] 2 3 = ['a'] := by
  have h := claim_C6_amended ['a'] ['<', '/', 'a', '>'] 0
    (by simp [findMatchedEndTag, findEndGo, tokenize, tokenizeFrom, tagMatch, isNameChar])
  simpa using h

/-- Claim C7 as stated is false: the comment pattern `.*?` does not match
line terminators, so a comment whose content spans a newline is left
completely unchanged by `normalize` instead of being blanked.  The
nine-character document `"<!--\\na-->"` survives `normalize` verbatim. -/
theorem claim_C7_counterexample :
    normalize ['<', '!', '-', '-', '\n', 'a', '-', '-', '>']
      = ['<', '!', '-', '-', '\n', 'a', '-', '-', '>']
    ∧ ['<', '!', '-', '-', '\n', 'a', '-', '-', '>'] ≠ blanks 9 := by
  constructor
  · simp [normalize, replaceBlank, commentMatch, commentClose, quoteMatch, selfCloseMatch,
      quoteClose, selfCloseClose, isLineTerm, isNameChar, isSpaceChar]
  · decide

/-- Claim C7, amended: the comment pass blanks a comment span up to its
nearest following close marker only when the content stays on one line;
content that reaches a line terminator before any `-->` defeats the pattern
and the comment is not blanked at all.  (In the positive part the content
is kept free of `-` so the appended `-->` is its nearest close marker.) -/
theorem claim_C7_amended :
    (∀ inner rest : List Char, (∀ c ∈ inner, isLineTerm c = false ∧ c ≠ '-') →
        replaceBlank commentMatch
          ('<' :: '!' :: '-' :: '-' :: (inner ++ '-' :: '-' :: '>' :: rest))
          = blanks (inner.length + 7) ++ replaceBlank commentMatch rest)
    ∧ (∀ (pre : List Char) (c : Char) (rest : List Char), hasClose pre = false →
        isLineTerm c = true →
        commentMatch ('<' :: '!' :: '-' :: '-' :: (pre ++ c :: rest)) = none) :=
  ⟨stripComments_comment, fun pre c rest h1 h2 => commentMatch_lineTerm pre rest h1 h2⟩

theorem claim_C7_witness :
    replaceBlank commentMatch ['<', '!', '-', '-', 'a', '-', '-', '>']
      = blanks 8 ++ replaceBlank commentMatch []
    ∧ commentMatch ['<', '!', '-', '-', '\n', '-', '-', '>'] = none := by
  constructor
  · have h := claim_C7_amended.1 ['a'] []
      (by intro c hc; simp at hc; subst hc; exact ⟨by decide, by decide⟩)
    simpa using h
  · exact claim_C7_amended.2 [] '\n' ['-', '-', '>'] (by decide) (by decide)

/-- Claim C8: a bare self-closing tag `<name/>` with no attributes is left
unchanged by `normalize` (the self-closing blanking pass requires at least
one whitespace-separated attribute region), yet anchoring on its name still
classifies it as self-closing through the resolver's `^[^<>]*\\/>` check on
the text after the anchor, so only the anchor range is returned. -/
theorem claim_C8 (n : List Char) (hv : validName n) (pos : Nat)
    (h1 : 1 ≤ pos) (h2 : pos < 1 + n.length) :
    normalize ('<' :: (n ++ ['/', '>'])) = '<' :: (n ++ ['/', '>'])
    ∧ provideDocumentHighlights ('<' :: (n ++ ['/', '>'])) pos = .ok [(1, 1 + n.length)] :=
  ⟨normalize_bareSelfClose hv, resolve_bareSelfClose hv pos h1 h2⟩

theorem claim_C8_witness :
    normalize ['<', 'f', 'o', 'o', '/', '>'] = ['<', 'f', 'o', 'o', '/', '>']
    ∧ provideDocumentHighlights ['<', 'f', 'o', 'o', '/', '>'] 1 = .ok [(1, 4)] := by
  have h := claim_C8 ['f', 'o', 'o'] ⟨by simp, by decide⟩ 1 (by decide) (by decide)
  simpa using h

/-- Claim C9 is contradicted by the code: on the five-character document
`"hello"` with the cursor at offset `0` the anchor word starts at column
`0`, `prev` builds `new Position(line, 0 - 1)`, and the editor rejects the
negative character with an exception, so `provideDocumentHighlights`
throws instead of returning the anchor range. -/
theorem claim_C9_failing :
    provideDocumentHighlights ['h', 'e', 'l', 'l', 'o'] 0 = .error () := by
  simp [provideDocumentHighlights, wordRangeAt, runStart, isNameChar, slice, prevE, colAt,
    Bind.bind, Except.bind]

/-- Claim C10: the backward matcher's result depends only on the preceding
text and never on the searched name — its `name` parameter is dead — so the
start tag it reports is never compared against the anchor's name.  On the
mismatched document `"<a></b>"`, anchoring on `b` highlights the unrelated
`<a` as its pair. -/
theorem claim_C10 :
    (∀ (n1 n2 t : List Char), findMatchedStartTag n1 t = findMatchedStartTag n2 t)
    ∧ provideDocumentHighlights ['<', 'a', '>', '<', '/', 'b', '>'] 5
        = .ok [(5, 6), (1, 2)] := by
  constructor
  · intro n1 n2 t
    rfl
  · simp [provideDocumentHighlights, wordRangeAt, runStart, isNameChar, slice, prevE, colAt,
      normalize, replaceBlank, commentMatch, quoteMatch, selfCloseMatch, selfCloseTest,
      findMatchedEndTag, findEndGo, tokenize, tokenizeFrom, tagMatch, nextChars, lineRemain,
      findMatchedStartTag, findStartGo, quoteClose, commentClose, selfCloseClose,
      isSpaceChar, isLineTerm, Bind.bind, Except.bind, pure, Except.pure]

end Wxml
